import Mathlib

/-
Verification of the landscape-image acquisition and ranking pipeline of this
repository (posters.py, download-images/script.py).

The Python sources are embedded shallowly:

* Strings are Lean `String`s; character-level operations (lowercasing,
  substring search, the extension regex) work on `List Char`.
* The Python float scores are modelled as exact rationals (`ℚ`); the color
  pipeline (sRGB → XYZ → Lab), which uses real powers, is modelled over `ℝ`
  with the decimal literals of the source read as exact rationals.
* Network fetches are modelled by their outcome: a `Candidate` carries the URL
  together with `Option Probed` — `none` when `fetch_image_and_dims` raises
  (FetchError/DecodeError), `some` with the decoded bytes, width, height and
  declared content type otherwise.
* `score_landscape(data, w, h, poster_lab)` is float-valued and its numeric
  value is irrelevant to the scan-loop claims, so the scan is parametrised
  over the score function `f : Probed → ℚ` (the poster color is fixed for the
  whole run, so the loop only ever consumes `score_landscape` at the probed
  candidate).
* The aspect test `w / h < 1.2` of the source is exact rational division for
  `h > 0` and is embedded as `5 * w < 6 * h` on naturals (the source raises
  ZeroDivisionError on `h = 0`, which no claim exercises).
-/

set_option maxHeartbeats 1000000
set_option maxRecDepth 8000

/-! ## Character and string utilities -/

/-- Does the second list start with the first one?  (Used to embed the
substring tests `"png" in ct` and the anchored pieces of the extension
regex.) -/
def leadMatch : List Char → List Char → Bool
  | [], _ => true
  | _ :: _, [] => false
  | p :: ps, c :: cs => p == c && leadMatch ps cs

/-- Python's `pat in s` substring test on char lists. -/
def hasSub (pat : List Char) : List Char → Bool
  | [] => leadMatch pat []
  | c :: rest => leadMatch pat (c :: rest) || hasSub pat rest

/-- Python `str.lower()` restricted to the ASCII range the URLs and content
types of this program use. -/
def lowerStr (s : List Char) : List Char := s.map Char.toLower

/-- The four extension tokens of the regex `\.(jpe?g|png|webp)(?:\?|$)`. -/
def jpgTok : List Char := ['j', 'p', 'g']

/-- Token `jpeg` of the extension regex. -/
def jpegTok : List Char := ['j', 'p', 'e', 'g']

/-- Token `png` of the extension regex. -/
def pngTok : List Char := ['p', 'n', 'g']

/-- Token `webp` of the extension regex. -/
def webpTok : List Char := ['w', 'e', 'b', 'p']

/-- The `(?:\?|$)` tail of the extension regex: a literal question mark, or
Python's `$`, which matches at the end of the string and also just before a
newline that ends the string. -/
def qEnd : List Char → Bool
  | [] => true
  | ['\n'] => true
  | c :: _ => c == '?'

/-- Does `u` start with `.` followed by token `t` followed by `?` or the end
of the string?  One alternative of the regex, anchored at the current
position. -/
def extAtHead (t : List Char) (u : List Char) : Bool :=
  leadMatch ('.' :: t) u && qEnd (u.drop (t.length + 1))

/-- One position of `re.search(r"\.(jpe?g|png|webp)(?:\?|$)", url, re.I)`:
the regex engine tries the alternatives `jpeg`, `jpg`, `png`, `webp` in this
order at the current position (its input is already lowercased here, which is
equivalent to the case-insensitive flag plus `group(1).lower()`). -/
def urlExtAt (u : List Char) : Option (List Char) :=
  if extAtHead jpegTok u then some jpegTok
  else if extAtHead jpgTok u then some jpgTok
  else if extAtHead pngTok u then some pngTok
  else if extAtHead webpTok u then some webpTok
  else none

/-- `re.search` proper: leftmost position at which some alternative matches. -/
def urlExtSearch : List Char → Option (List Char)
  | [] => none
  | c :: rest =>
    match urlExtAt (c :: rest) with
    | some t => some t
    | none => urlExtSearch rest

/-! ## infer_ext (posters.py lines 66-73; identical copy in
download-images/script.py lines 51-58) -/

/-- The content-type branch of `infer_ext`: Python's `if content_type:` is
false on the empty string, and inside the guarded block each of the three
membership tests returns early; when none hits, control falls through to the
URL regex, modelled by `none` here. -/
def ctInfer (ct0 : String) : Option String :=
  if ct0.data = [] then none
  else
    if hasSub pngTok (lowerStr ct0.data) then some ".png"
    else if hasSub webpTok (lowerStr ct0.data) then some ".webp"
    else if hasSub jpegTok (lowerStr ct0.data) || hasSub jpgTok (lowerStr ct0.data) then
      some ".jpg"
    else none

/-- The URL-regex fallback of `infer_ext`:
`m = re.search(r"\.(jpe?g|png|webp)(?:\?|$)", url, re.I)` and then
`f".{m.group(1).lower()}" if m else ".jpg"`. -/
def urlInfer (url : String) : String :=
  match urlExtSearch (lowerStr url.data) with
  | some t => String.mk ('.' :: t)
  | none => ".jpg"

/-- `infer_ext(url, content_type)` from posters.py.  `content_type` is
`Option String` because callers may pass `None`; the empty string is handled
inside `ctInfer`. -/
def infer_ext (url : String) (content_type : Option String) : String :=
  match content_type with
  | some ct0 =>
    match ctInfer ct0 with
    | some e => e
    | none => urlInfer url
  | none => urlInfer url

/-- `infer_ext(url, content_type)` from download-images/script.py lines
51-58, which is character-for-character the same function as the one in
posters.py. -/
def script_infer_ext (url : String) (content_type : Option String) : String :=
  match content_type with
  | some ct0 =>
    match ctInfer ct0 with
    | some e => e
    | none => urlInfer url
  | none => urlInfer url

/-! ## Aggregator / deduplicator (posters.py lines 517-523; the same loop
appears in download-images/script.py lines 208-214) -/

/-- The dedup loop with its `seen` set made explicit:
`for u in probe: if u not in seen: seen.add(u); ordered.append(u)`. -/
def dedupGo (seen : List String) : List String → List String
  | [] => []
  | u :: rest => if u ∈ seen then dedupGo seen rest else u :: dedupGo (u :: seen) rest

/-- Deduplicate while preserving first-seen order, starting from an empty
`seen` set. -/
def dedupFirst (l : List String) : List String := dedupGo [] l

/-- Specification reading of the aggregator: keep each URL at the position of
its first occurrence and drop every later duplicate in place. -/
def keepFirsts : List String → List String
  | [] => []
  | u :: rest => u :: keepFirsts (rest.filter (fun v => !(v == u)))
termination_by l => l.length
decreasing_by
  simp only [List.length_cons]
  exact Nat.lt_succ_of_le (List.length_filter_le _ _)

/-! ## Orchestrator (posters.py lines 493-523): the five source adapters are
queried in priority order and each lower-priority adapter is skipped when the
accumulated probe list is already long enough; the thresholds test
`len(probe)`, i.e. the raw length including duplicates. -/

/-- The adapter orchestration of `fetch_best_landscape_any`: the adapter
outputs (network results) are the inputs of the model. -/
def orchestrate (dbs apis google ddg bing : List String) : List String :=
  let p1 := dbs
  let p2 := if p1.length < 10 then p1 ++ apis else p1
  let p3 := if p2.length < 20 then p2 ++ google else p2
  let p4 := if p3.length < 30 then p3 ++ ddg else p3
  let p5 := if p4.length < 40 then p4 ++ bing else p4
  dedupFirst p5

/-- `len(probe)` after the free-image-API stage. -/
def lenAfterApis (dbs apis : List String) : Nat :=
  dbs.length + if dbs.length < 10 then apis.length else 0

/-- `len(probe)` after the Google stage. -/
def lenAfterGoogle (dbs apis google : List String) : Nat :=
  lenAfterApis dbs apis + if lenAfterApis dbs apis < 20 then google.length else 0

/-- `len(probe)` after the DuckDuckGo stage. -/
def lenAfterDdg (dbs apis google ddg : List String) : Nat :=
  lenAfterGoogle dbs apis google +
    if lenAfterGoogle dbs apis google < 30 then ddg.length else 0

/-! ## The ranking scan (posters.py lines 531-577) -/

/-- A successfully probed candidate: the result of `fetch_image_and_dims`
(bytes, width, height, declared content type). -/
structure Probed where
  data : List Nat
  w : Nat
  h : Nat
  ct : String
deriving DecidableEq

/-- A candidate URL together with the outcome of probing it: `none` when
`fetch_image_and_dims` raises, `some` otherwise. -/
structure Candidate where
  url : String
  probe : Option Probed
deriving DecidableEq

/-- The mutable state of the scan loop: `best` is the `(score, data, ext)`
triple (`None` initially), `checked` counts successful fetches, `valid`
counts filter-passing candidates. -/
structure ScanState where
  best : Option (ℚ × (List Nat × String))
  checked : Nat
  valid : Nat
deriving DecidableEq

/-- `best = None; checked = 0; valid_candidates = 0`. -/
def initScanState : ScanState := ⟨none, 0, 0⟩

/-- The 0.3 literal of the early-exit test, written in lowest terms so that
the scan evaluates under kernel reduction; `scoreThreshold_eq` below checks
it equals `3 / 10`. -/
def scoreThreshold : ℚ := ⟨3, 10, by norm_num, by norm_num⟩

/-- The early-exit test `best and best[0] < 0.3 and valid_candidates >= 2`
(a tuple is always truthy, so `best` tests for `None`). -/
def earlyExitHit (s : ScanState) : Bool :=
  match s.best with
  | none => false
  | some b => decide (b.1 < scoreThreshold) && decide (2 ≤ s.valid)

/-- `if best is None or score < best[0]: best = (score, data, infer_ext(url, ct))`. -/
def bestUpdate (f : Probed → ℚ) (u : String) (p : Probed)
    (b : Option (ℚ × (List Nat × String))) : Option (ℚ × (List Nat × String)) :=
  match b with
  | none => some (f p, (p.data, infer_ext u (some p.ct)))
  | some q => if f p < q.1 then some (f p, (p.data, infer_ext u (some p.ct))) else some q

/-- The state after processing one filter-passing candidate: `checked` and
`valid_candidates` are incremented and Best-So-Far is updated. -/
def bumpState (f : Probed → ℚ) (c : Candidate) (p : Probed) (s : ScanState) : ScanState :=
  { best := bestUpdate f c.url p s.best, checked := s.checked + 1, valid := s.valid + 1 }

/-- One iteration of the scan loop of `fetch_best_landscape_any`.  The
returned Bool is the break flag.  Failed fetches `continue` before
`checked += 1`; the two filters `continue` after it; only a filter-passing
candidate reaches the early-exit test and the `checked >= 100` safety cap. -/
def scanStep (minW : Nat) (f : Probed → ℚ) (c : Candidate) (s : ScanState) :
    ScanState × Bool :=
  match c.probe with
  | none => (s, false)
  | some p =>
    if p.w < minW then ({ s with checked := s.checked + 1 }, false)
    else if 5 * p.w < 6 * p.h then ({ s with checked := s.checked + 1 }, false)
    else
      let s2 : ScanState :=
        { best := bestUpdate f c.url p s.best, checked := s.checked + 1,
          valid := s.valid + 1 }
      if earlyExitHit s2 then (s2, true)
      else if 100 ≤ s2.checked then (s2, true)
      else (s2, false)

/-- The scan loop: final state together with the number of probe (fetch)
attempts performed — every loop iteration calls `fetch_image_and_dims`
exactly once before anything else. -/
def scanGo (minW : Nat) (f : Probed → ℚ) : List Candidate → ScanState → ScanState × Nat
  | [], s => (s, 0)
  | c :: rest, s =>
    if (scanStep minW f c s).2 = true then ((scanStep minW f c s).1, 1)
    else ((scanGo minW f rest (scanStep minW f c s).1).1,
          (scanGo minW f rest (scanStep minW f c s).1).2 + 1)

/-- The value returned by `fetch_best_landscape_any` after the candidate list
is materialized: the empty-list early return, then the scan, then
`best[1], best[2]` or `None, None`. -/
def fetch_best_landscape_scan (minW : Nat) (f : Probed → ℚ) (ordered : List Candidate) :
    Option (List Nat × String) :=
  if ordered.length = 0 then none
  else
    match (scanGo minW f ordered initScanState).1.best with
    | some b => some (b.2.1, b.2.2)
    | none => none

/-- The filter-passing candidates of a list, with their URLs: probe
succeeded, width at least the floor, aspect ratio at least 1.2. -/
def validsOf (minW : Nat) (l : List Candidate) : List (String × Probed) :=
  l.filterMap fun c =>
    match c.probe with
    | none => none
    | some p => if ¬p.w < minW ∧ ¬5 * p.w < 6 * p.h then some (c.url, p) else none

/-- Specification reading of Best-So-Far: fold over the filter-passing
candidates; the first becomes the initial best and a later one replaces it
exactly when its score is strictly lower. -/
def specBest (f : Probed → ℚ) (valids : List (String × Probed)) :
    Option (ℚ × (List Nat × String)) :=
  valids.foldl (fun b v => bestUpdate f v.1 v.2 b) none

/-- `(scanStep).1` as a fold step, for relating the no-break run to a plain
left fold. -/
def stepState (minW : Nat) (f : Probed → ℚ) (s : ScanState) (c : Candidate) : ScanState :=
  (scanStep minW f c s).1

/-! ## Color model (posters.py lines 94-133), over `ℝ` -/

open scoped Classical

/-- `srgb_to_linear(c)`: divide by 255, then the two-branch sRGB inverse
gamma transfer function. -/
noncomputable def srgb_to_linear (c : ℝ) : ℝ :=
  if c / 255 ≤ 0.04045 then (c / 255) / 12.92
  else ((c / 255 + 0.055) / 1.055) ^ (2.4 : ℝ)

/-- `rgb_to_xyz(r, g, b)`: linearize each channel, then the fixed 3×3
matrix. -/
noncomputable def rgb_to_xyz (r g b : ℕ) : ℝ × ℝ × ℝ :=
  (srgb_to_linear r * 0.4124 + srgb_to_linear g * 0.3576 + srgb_to_linear b * 0.1805,
   srgb_to_linear r * 0.2126 + srgb_to_linear g * 0.7152 + srgb_to_linear b * 0.0722,
   srgb_to_linear r * 0.0193 + srgb_to_linear g * 0.1192 + srgb_to_linear b * 0.9505)

/-- `f_lab(t)` with `eps = 216/24389` and `kappa = 24389/27`. -/
noncomputable def f_lab (t : ℝ) : ℝ :=
  if 216 / 24389 < t then t ^ ((1 : ℝ) / 3)
  else ((24389 / 27) * t + 16) / 116

/-- `xyz_to_lab(X, Y, Z)` against the D65 white point. -/
noncomputable def xyz_to_lab (X Y Z : ℝ) : ℝ × ℝ × ℝ :=
  (116 * f_lab (Y / 1.00000) - 16,
   500 * (f_lab (X / 0.95047) - f_lab (Y / 1.00000)),
   200 * (f_lab (Y / 1.00000) - f_lab (Z / 1.08883)))

/-- One channel of the pixel average of `avg_color_lab`: the arithmetic mean
followed by Python's `int(...)` truncation (the mean of nonnegative values,
so truncation is the floor). -/
def avgChan (l : List ℕ) : ℕ := ⌊(l.sum : ℚ) / (l.length : ℚ)⌋₊

/-- `avg_color_lab` from the per-pixel RGB triples of the downsampled image
onward (the PIL decode and 64×64 resize produce this pixel list). -/
noncomputable def avg_color_lab (pixels : List (ℕ × ℕ × ℕ)) : ℝ × ℝ × ℝ :=
  let r := avgChan (pixels.map fun p => p.1)
  let g := avgChan (pixels.map fun p => p.2.1)
  let b := avgChan (pixels.map fun p => p.2.2)
  xyz_to_lab (rgb_to_xyz r g b).1 (rgb_to_xyz r g b).2.1 (rgb_to_xyz r g b).2.2

/-! ## Concrete fixtures used by witnesses and counterexamples -/

/-- Score oracle giving 5, 2, 8 to the three candidates of `exL158`. -/
def exF158 : Probed → ℚ := fun p => if p.data = [1] then 5 else if p.data = [2] then 2 else 8

/-- Three valid candidates, probed successfully at 1920×1080. -/
def exL158 : List Candidate :=
  [⟨"u1", some ⟨[1], 1920, 1080, "image/jpeg"⟩⟩,
   ⟨"u2", some ⟨[2], 1920, 1080, "image/jpeg"⟩⟩,
   ⟨"u3", some ⟨[3], 1920, 1080, "image/jpeg"⟩⟩]

/-- Score oracle for the early-exit fixture: 1 then 0. -/
def exF5 : Probed → ℚ := fun p => if p.data = [1] then 1 else 0

/-- Two valid candidates whose second score (0) is below the 0.3
threshold. -/
def exL5a : List Candidate :=
  [⟨"v1", some ⟨[1], 1920, 1080, ""⟩⟩, ⟨"v2", some ⟨[2], 1920, 1080, ""⟩⟩]

/-- A further candidate that must not be probed once the early exit has
fired. -/
def exL5b : List Candidate := [⟨"v3", some ⟨[3], 1920, 1080, ""⟩⟩]

/-- A candidate that fetches successfully but is only 1 pixel wide, so it
fails the width filter. -/
def exFiltered : Candidate := ⟨"s", some ⟨[0], 1, 1, ""⟩⟩

/-- Valid candidate with bytes `[1]`, 2000×1000. -/
def exC4a : Candidate := ⟨"a", some ⟨[1], 2000, 1000, ""⟩⟩

/-- Valid candidate with bytes `[2]`, 2000×1000. -/
def exC4b : Candidate := ⟨"b", some ⟨[2], 2000, 1000, ""⟩⟩

/-- Score oracle for the filter-interference counterexample: 2 then 1. -/
def exF4 : Probed → ℚ := fun p => if p.data = [1] then 2 else if p.data = [2] then 1 else 9

/-- The 500-px-wide candidate of the spec's width-floor example. -/
def exSmall : Candidate := ⟨"small", some ⟨[1], 500, 280, "image/jpeg"⟩⟩

/-- The 2000-px-wide candidate of the spec's width-floor example. -/
def exBig : Candidate := ⟨"big", some ⟨[2], 2000, 1125, "image/jpeg"⟩⟩

/-- Score oracle of the width-floor example: the 500-px candidate would score
-100, the 2000-px one scores 1. -/
def exFw : Probed → ℚ := fun p => if p.w = 500 then -100 else 1

/-- Constant score oracle for runs whose scores are never consulted. -/
def exF0 : Probed → ℚ := fun _ => 0

/-! ## Basic lemmas about the scan loop -/

theorem scoreThreshold_eq : scoreThreshold = 3 / 10 := by
  rw [scoreThreshold, Rat.mk'_eq_divInt, Rat.divInt_eq_div]; norm_num

lemma scanGo_nil (minW : Nat) (f : Probed → ℚ) (s : ScanState) :
    scanGo minW f [] s = (s, 0) := rfl

lemma scanGo_cons (minW : Nat) (f : Probed → ℚ) (c : Candidate) (rest : List Candidate)
    (s : ScanState) :
    scanGo minW f (c :: rest) s =
      if (scanStep minW f c s).2 = true then ((scanStep minW f c s).1, 1)
      else ((scanGo minW f rest (scanStep minW f c s).1).1,
            (scanGo minW f rest (scanStep minW f c s).1).2 + 1) := rfl

lemma scanStep_fail (minW : Nat) (f : Probed → ℚ) (c : Candidate) (s : ScanState)
    (h : c.probe = none) : scanStep minW f c s = (s, false) := by
  simp [scanStep, h]

lemma scanStep_narrow (minW : Nat) (f : Probed → ℚ) (c : Candidate) (p : Probed)
    (s : ScanState) (h : c.probe = some p) (hw : p.w < minW) :
    scanStep minW f c s = ({ s with checked := s.checked + 1 }, false) := by
  simp [scanStep, h, hw]

lemma scanStep_flat (minW : Nat) (f : Probed → ℚ) (c : Candidate) (p : Probed)
    (s : ScanState) (h : c.probe = some p) (hw : ¬p.w < minW) (ha : 5 * p.w < 6 * p.h) :
    scanStep minW f c s = ({ s with checked := s.checked + 1 }, false) := by
  simp [scanStep, h, hw, ha]

lemma scanStep_valid (minW : Nat) (f : Probed → ℚ) (c : Candidate) (p : Probed)
    (s : ScanState) (h : c.probe = some p) (hw : ¬p.w < minW) (ha : ¬5 * p.w < 6 * p.h) :
    scanStep minW f c s =
      (bumpState f c p s,
       earlyExitHit (bumpState f c p s) || decide (100 ≤ s.checked + 1)) := by
  simp only [scanStep, h, bumpState]
  rw [if_neg hw, if_neg ha]
  split_ifs with h1 h2 <;> simp_all

lemma earlyExitHit_checked (s : ScanState) (n : Nat) :
    earlyExitHit { s with checked := n } = earlyExitHit s := rfl

lemma validsOf_nil (minW : Nat) : validsOf minW [] = [] := rfl

lemma validsOf_cons_fail (minW : Nat) (c : Candidate) (l : List Candidate)
    (h : c.probe = none) : validsOf minW (c :: l) = validsOf minW l := by
  simp [validsOf, List.filterMap_cons, h]

lemma validsOf_cons_narrow (minW : Nat) (c : Candidate) (p : Probed) (l : List Candidate)
    (h : c.probe = some p) (hw : p.w < minW) :
    validsOf minW (c :: l) = validsOf minW l := by
  simp [validsOf, List.filterMap_cons, h, hw]

lemma validsOf_cons_flat (minW : Nat) (c : Candidate) (p : Probed) (l : List Candidate)
    (h : c.probe = some p) (ha : 5 * p.w < 6 * p.h) :
    validsOf minW (c :: l) = validsOf minW l := by
  simp [validsOf, List.filterMap_cons, h, ha]

lemma validsOf_cons_valid (minW : Nat) (c : Candidate) (p : Probed) (l : List Candidate)
    (h : c.probe = some p) (hw : ¬p.w < minW) (ha : ¬5 * p.w < 6 * p.h) :
    validsOf minW (c :: l) = (c.url, p) :: validsOf minW l := by
  simp [validsOf, List.filterMap_cons, h, Nat.not_lt.mp hw, Nat.not_lt.mp ha]

/-! ## Lemmas about the deduplicator -/

lemma mem_dedupGo (u : String) (l : List String) :
    ∀ seen, u ∈ dedupGo seen l ↔ u ∈ l ∧ u ∉ seen := by
  induction l with
  | nil => intro seen; simp [dedupGo]
  | cons v rest ih =>
    intro seen
    by_cases hv : v ∈ seen
    · simp only [dedupGo, if_pos hv, ih, List.mem_cons]
      by_cases hu : u = v
      · subst hu; tauto
      · tauto
    · simp only [dedupGo, if_neg hv, List.mem_cons, ih, not_or]
      by_cases hu : u = v
      · subst hu; tauto
      · tauto

lemma dedupGo_sublist (l : List String) : ∀ seen, (dedupGo seen l).Sublist l := by
  induction l with
  | nil => intro seen; simp [dedupGo]
  | cons v rest ih =>
    intro seen
    simp only [dedupGo]
    split_ifs with hv
    · exact (ih seen).trans (List.sublist_cons_self v rest)
    · exact (ih (v :: seen)).cons₂ v

lemma dedupGo_nodup (l : List String) : ∀ seen, (dedupGo seen l).Nodup := by
  induction l with
  | nil => intro seen; simp [dedupGo]
  | cons v rest ih =>
    intro seen
    simp only [dedupGo]
    split_ifs with hv
    · exact ih seen
    · refine List.nodup_cons.mpr ⟨?_, ih (v :: seen)⟩
      intro hmem
      rcases (mem_dedupGo v rest (v :: seen)).mp hmem with ⟨_, hnot⟩
      exact hnot (List.mem_cons_self v seen)

lemma mem_dedupFirst (u : String) (l : List String) : u ∈ dedupFirst l ↔ u ∈ l := by
  rw [dedupFirst, mem_dedupGo]
  simp

lemma dedupGo_eq_keepFirsts (l : List String) :
    ∀ seen, dedupGo seen l = keepFirsts (l.filter (fun v => !(seen.contains v))) := by
  induction l with
  | nil => intro seen; simp [dedupGo, keepFirsts]
  | cons v rest ih =>
    intro seen
    by_cases hv : v ∈ seen
    · have hc : ¬((!(seen.contains v)) = true) := by simp [hv]
      rw [List.filter_cons, if_neg hc]
      simp only [dedupGo, if_pos hv]
      exact ih seen
    · have hc : (!(seen.contains v)) = true := by simp [hv]
      rw [List.filter_cons, if_pos hc]
      simp only [dedupGo, if_neg hv]
      rw [keepFirsts, ih (v :: seen), List.filter_filter]
      congr 1
      congr 1
      apply List.filter_congr
      intro a _
      by_cases hav : a = v <;> simp [List.contains_cons, Bool.and_comm, hav]

lemma dedupFirst_eq_keepFirsts (l : List String) : dedupFirst l = keepFirsts l := by
  have h := dedupGo_eq_keepFirsts l []
  simpa [dedupFirst] using h

/-! ## Lemmas about the orchestrator -/

lemma length_ite_append (c : Prop) [Decidable c] (a b : List String) :
    (if c then a ++ b else a).length = a.length + if c then b.length else 0 := by
  split_ifs <;> simp

lemma mem_ite_append (c : Prop) [Decidable c] (a b : List String) (u : String) :
    (u ∈ (if c then a ++ b else a)) ↔ u ∈ a ∨ (c ∧ u ∈ b) := by
  split_ifs with h <;> simp [h]

/-! ## Structural lemmas about the scan -/

lemma scanGo_state_filter (minW : Nat) (f : Probed → ℚ) (l : List Candidate) :
    ∀ s, (scanGo minW f l s).1 = (scanGo minW f (l.filter fun c => c.probe.isSome) s).1 := by
  induction l with
  | nil => intro s; rfl
  | cons c rest ih =>
    intro s
    cases hc : c.probe with
    | none =>
      have hfil : (c :: rest).filter (fun c => c.probe.isSome) =
          rest.filter (fun c => c.probe.isSome) := by
        rw [List.filter_cons, if_neg]; simp [hc]
      rw [hfil, scanGo_cons, scanStep_fail minW f c s hc]
      simpa using ih s
    | some p =>
      have hfil : (c :: rest).filter (fun c => c.probe.isSome) =
          c :: rest.filter (fun c => c.probe.isSome) := by
        rw [List.filter_cons, if_pos]; simp [hc]
      rw [hfil, scanGo_cons, scanGo_cons]
      by_cases hbrk : (scanStep minW f c s).2 = true
      · rw [if_pos hbrk, if_pos hbrk]
      · rw [if_neg hbrk, if_neg hbrk]
        simpa using ih (scanStep minW f c s).1

lemma fetch_filter_eq (minW : Nat) (f : Probed → ℚ) (l : List Candidate) :
    fetch_best_landscape_scan minW f l =
      fetch_best_landscape_scan minW f (l.filter fun c => c.probe.isSome) := by
  unfold fetch_best_landscape_scan
  by_cases h0 : l.length = 0
  · have hl : l = [] := List.length_eq_zero.mp h0
    subst hl; rfl
  · rw [if_neg h0]
    by_cases hf : (l.filter fun c => c.probe.isSome).length = 0
    · rw [if_pos hf]
      have hfe : l.filter (fun c => c.probe.isSome) = [] := List.length_eq_zero.mp hf
      have hs := scanGo_state_filter minW f l initScanState
      rw [hfe] at hs
      rw [hs]
      rfl
    · rw [if_neg hf, scanGo_state_filter minW f l initScanState]

lemma scanGo_valid_le (minW : Nat) (f : Probed → ℚ) (l : List Candidate) :
    ∀ s, s.valid ≤ s.checked → s.valid ≤ 99 → (scanGo minW f l s).1.valid ≤ 100 := by
  induction l with
  | nil => intro s _ h2; exact h2.trans (by norm_num)
  | cons c rest ih =>
    intro s h1 h2
    cases hc : c.probe with
    | none =>
      rw [scanGo_cons, scanStep_fail minW f c s hc]
      simpa using ih s h1 h2
    | some p =>
      by_cases hw : p.w < minW
      · rw [scanGo_cons, scanStep_narrow minW f c p s hc hw]
        have hrec := ih { s with checked := s.checked + 1 }
          (le_trans h1 (Nat.le_succ s.checked)) h2
        simpa using hrec
      · by_cases ha : 5 * p.w < 6 * p.h
        · rw [scanGo_cons, scanStep_flat minW f c p s hc hw ha]
          have hrec := ih { s with checked := s.checked + 1 }
            (le_trans h1 (Nat.le_succ s.checked)) h2
          simpa using hrec
        · rw [scanGo_cons, scanStep_valid minW f c p s hc hw ha]
          by_cases hbrk : (earlyExitHit (bumpState f c p s) ||
              decide (100 ≤ s.checked + 1)) = true
          · rw [if_pos (by simpa using hbrk)]
            simpa [bumpState] using Nat.succ_le_succ h2
          · rw [if_neg (by simpa using hbrk)]
            simp only [Bool.or_eq_true, decide_eq_true_eq] at hbrk
            push_neg at hbrk
            have hck : s.checked + 1 ≤ 99 := by omega
            have hv1 : (bumpState f c p s).valid ≤ (bumpState f c p s).checked :=
              Nat.succ_le_succ h1
            have hv2 : (bumpState f c p s).valid ≤ 99 :=
              le_trans (Nat.succ_le_succ h1) hck
            simpa using ih (bumpState f c p s) hv1 hv2

lemma scanGo_probes_le (minW : Nat) (f : Probed → ℚ) (l : List Candidate) :
    ∀ s, (scanGo minW f l s).2 ≤ l.length := by
  induction l with
  | nil => intro s; simp [scanGo_nil]
  | cons c rest ih =>
    intro s
    rw [scanGo_cons]
    by_cases hbrk : (scanStep minW f c s).2 = true
    · rw [if_pos hbrk]; simp
    · rw [if_neg hbrk]
      simpa using Nat.succ_le_succ (ih (scanStep minW f c s).1)

lemma scanGo_stop (minW : Nat) (f : Probed → ℚ) (l1 : List Candidate) :
    ∀ (l2 : List Candidate) (s : ScanState), earlyExitHit s = false →
      earlyExitHit (scanGo minW f l1 s).1 = true →
      scanGo minW f (l1 ++ l2) s = scanGo minW f l1 s := by
  induction l1 with
  | nil =>
    intro l2 s hs hend
    rw [scanGo_nil] at hend
    simp only [hs] at hend
    cases hend
  | cons c rest ih =>
    intro l2 s hs hend
    cases hc : c.probe with
    | none =>
      rw [scanGo_cons, scanStep_fail minW f c s hc] at hend ⊢
      rw [List.cons_append, scanGo_cons, scanStep_fail minW f c s hc]
      simp only [Bool.false_eq_true, if_false] at hend ⊢
      rw [ih l2 s hs hend]
    | some p =>
      by_cases hw : p.w < minW
      · rw [scanGo_cons, scanStep_narrow minW f c p s hc hw] at hend ⊢
        rw [List.cons_append, scanGo_cons, scanStep_narrow minW f c p s hc hw]
        simp only [Bool.false_eq_true, if_false] at hend ⊢
        have hs2 : earlyExitHit { s with checked := s.checked + 1 } = false := by
          rw [earlyExitHit_checked]; exact hs
        rw [ih l2 _ hs2 hend]
      · by_cases ha : 5 * p.w < 6 * p.h
        · rw [scanGo_cons, scanStep_flat minW f c p s hc hw ha] at hend ⊢
          rw [List.cons_append, scanGo_cons, scanStep_flat minW f c p s hc hw ha]
          simp only [Bool.false_eq_true, if_false] at hend ⊢
          have hs2 : earlyExitHit { s with checked := s.checked + 1 } = false := by
            rw [earlyExitHit_checked]; exact hs
          rw [ih l2 _ hs2 hend]
        · rw [scanGo_cons, scanStep_valid minW f c p s hc hw ha] at hend ⊢
          rw [List.cons_append, scanGo_cons, scanStep_valid minW f c p s hc hw ha]
          by_cases hbrk : (earlyExitHit (bumpState f c p s) ||
              decide (100 ≤ s.checked + 1)) = true
          · rw [if_pos (by simpa using hbrk), if_pos (by simpa using hbrk)]
          · rw [if_neg (by simpa using hbrk)] at hend ⊢
            rw [if_neg (by simpa using hbrk)]
            simp only [Bool.or_eq_true, decide_eq_true_eq] at hbrk
            push_neg at hbrk
            have hE : earlyExitHit (bumpState f c p s) = false :=
              Bool.not_eq_true _ |>.mp hbrk.1
            simp only at hend
            rw [ih l2 _ hE hend]

lemma scanGo_noBreak_fold (minW : Nat) (f : Probed → ℚ) (l : List Candidate) :
    ∀ s, (scanGo minW f l s).2 = l.length →
      (scanGo minW f l s).1 = l.foldl (stepState minW f) s := by
  induction l with
  | nil => intro s _; rfl
  | cons c rest ih =>
    intro s h
    rw [scanGo_cons] at h ⊢
    by_cases hbrk : (scanStep minW f c s).2 = true
    · rw [if_pos hbrk] at h ⊢
      simp only [List.length_cons] at h
      have hr : rest.length = 0 := by omega
      have : rest = [] := List.length_eq_zero.mp hr
      subst this
      simp [stepState]
    · rw [if_neg hbrk] at h ⊢
      simp only [List.length_cons] at h
      have h2 : (scanGo minW f rest (scanStep minW f c s).1).2 = rest.length := by omega
      simp only [List.foldl_cons]
      exact ih (scanStep minW f c s).1 h2

lemma foldl_best_eq_specBest (minW : Nat) (f : Probed → ℚ) (l : List Candidate) :
    ∀ s, (l.foldl (stepState minW f) s).best =
      (validsOf minW l).foldl (fun b v => bestUpdate f v.1 v.2 b) s.best := by
  induction l with
  | nil => intro s; rfl
  | cons c rest ih =>
    intro s
    simp only [List.foldl_cons]
    cases hc : c.probe with
    | none =>
      rw [validsOf_cons_fail minW c rest hc]
      have hstep : stepState minW f s c = s := by
        simp [stepState, scanStep_fail minW f c s hc]
      rw [hstep]
      exact ih s
    | some p =>
      by_cases hw : p.w < minW
      · rw [validsOf_cons_narrow minW c p rest hc hw]
        have hstep : stepState minW f s c = { s with checked := s.checked + 1 } := by
          simp [stepState, scanStep_narrow minW f c p s hc hw]
        rw [hstep, ih]
      · by_cases ha : 5 * p.w < 6 * p.h
        · rw [validsOf_cons_flat minW c p rest hc ha]
          have hstep : stepState minW f s c = { s with checked := s.checked + 1 } := by
            simp [stepState, scanStep_flat minW f c p s hc hw ha]
          rw [hstep, ih]
        · rw [validsOf_cons_valid minW c p rest hc hw ha]
          have hstep : stepState minW f s c = bumpState f c p s := by
            simp [stepState, scanStep_valid minW f c p s hc hw ha]
          rw [hstep, List.foldl_cons, ih]
          rfl

lemma bestUpdate_cases (f : Probed → ℚ) (u : String) (p : Probed)
    (b : Option (ℚ × (List Nat × String))) (q : ℚ × (List Nat × String))
    (h : bestUpdate f u p b = some q) :
    q = (f p, (p.data, infer_ext u (some p.ct))) ∨ b = some q := by
  cases b with
  | none =>
    left
    simpa [bestUpdate] using h.symm
  | some r =>
    by_cases hlt : f p < r.1
    · left
      rw [bestUpdate, if_pos hlt] at h
      exact (Option.some_injective _ h).symm
    · right
      rw [bestUpdate, if_neg hlt] at h
      exact h.symm ▸ rfl

lemma scanGo_best_origin (minW : Nat) (f : Probed → ℚ) (l : List Candidate) :
    ∀ s q, (scanGo minW f l s).1.best = some q →
      s.best = some q ∨
      ∃ u p, (u, p) ∈ validsOf minW l ∧ q = (f p, (p.data, infer_ext u (some p.ct))) := by
  induction l with
  | nil => intro s q h; left; exact h
  | cons c rest ih =>
    intro s q h
    cases hc : c.probe with
    | none =>
      rw [scanGo_cons, scanStep_fail minW f c s hc] at h
      simp only [Bool.false_eq_true, if_false] at h
      rcases ih s q h with hl | ⟨u, p, hm, he⟩
      · left; exact hl
      · right; exact ⟨u, p, by rw [validsOf_cons_fail minW c rest hc]; exact hm, he⟩
    | some p =>
      by_cases hw : p.w < minW
      · rw [scanGo_cons, scanStep_narrow minW f c p s hc hw] at h
        simp only [Bool.false_eq_true, if_false] at h
        rcases ih _ q h with hl | ⟨u, p2, hm, he⟩
        · left; exact hl
        · right
          exact ⟨u, p2, by rw [validsOf_cons_narrow minW c p rest hc hw]; exact hm, he⟩
      · by_cases ha : 5 * p.w < 6 * p.h
        · rw [scanGo_cons, scanStep_flat minW f c p s hc hw ha] at h
          simp only [Bool.false_eq_true, if_false] at h
          rcases ih _ q h with hl | ⟨u, p2, hm, he⟩
          · left; exact hl
          · right
            exact ⟨u, p2, by rw [validsOf_cons_flat minW c p rest hc ha]; exact hm, he⟩
        · have hv : validsOf minW (c :: rest) = (c.url, p) :: validsOf minW rest :=
            validsOf_cons_valid minW c p rest hc hw ha
          have hbump : ∀ q2, (bumpState f c p s).best = some q2 →
              s.best = some q2 ∨
              ∃ u p2, (u, p2) ∈ validsOf minW (c :: rest) ∧
                q2 = (f p2, (p2.data, infer_ext u (some p2.ct))) := by
            intro q2 hq2
            have hb : bestUpdate f c.url p s.best = some q2 := hq2
            rcases bestUpdate_cases f c.url p s.best q2 hb with he | hold
            · right
              exact ⟨c.url, p, by rw [hv]; exact List.mem_cons_self _ _, he⟩
            · left; exact hold
          rw [scanGo_cons, scanStep_valid minW f c p s hc hw ha] at h
          by_cases hbrk : (earlyExitHit (bumpState f c p s) ||
              decide (100 ≤ s.checked + 1)) = true
          · rw [if_pos (by simpa using hbrk)] at h
            exact hbump q h
          · rw [if_neg (by simpa using hbrk)] at h
            simp only at h
            rcases ih (bumpState f c p s) q h with hl | ⟨u, p2, hm, he⟩
            · exact hbump q hl
            · right
              refine ⟨u, p2, ?_, he⟩
              rw [hv]
              exact List.mem_cons_of_mem _ hm
  
lemma scanStep_best_mono (minW : Nat) (f : Probed → ℚ) (c : Candidate) (s : ScanState)
    (q : ℚ × (List Nat × String)) (hq : s.best = some q) :
    ∃ q2, (scanStep minW f c s).1.best = some q2 ∧ q2.1 ≤ q.1 := by
  cases hc : c.probe with
  | none =>
    rw [scanStep_fail minW f c s hc]
    exact ⟨q, hq, le_refl _⟩
  | some p =>
    by_cases hw : p.w < minW
    · rw [scanStep_narrow minW f c p s hc hw]
      exact ⟨q, hq, le_refl _⟩
    · by_cases ha : 5 * p.w < 6 * p.h
      · rw [scanStep_flat minW f c p s hc hw ha]
        exact ⟨q, hq, le_refl _⟩
      · rw [scanStep_valid minW f c p s hc hw ha]
        show ∃ q2, (bumpState f c p s).best = some q2 ∧ q2.1 ≤ q.1
        rw [bumpState]
        simp only [bestUpdate, hq]
        by_cases hlt : f p < q.1
        · rw [if_pos hlt]
          exact ⟨_, rfl, le_of_lt hlt⟩
        · rw [if_neg hlt]
          exact ⟨q, rfl, le_refl _⟩

/-! ## Lemmas about the extension regex -/

lemma leadMatch_iff (p : List Char) : ∀ u, leadMatch p u = true ↔ ∃ r, u = p ++ r := by
  induction p with
  | nil => intro u; simp [leadMatch]
  | cons a ps ih =>
    intro u
    cases u with
    | nil => simp [leadMatch]
    | cons c cs =>
      simp only [leadMatch, Bool.and_eq_true, beq_iff_eq]
      constructor
      · rintro ⟨h1, h2⟩
        subst h1
        rcases (ih cs).mp h2 with ⟨r, hr⟩
        exact ⟨r, by rw [List.cons_append, hr]⟩
      · rintro ⟨r, hr⟩
        rw [List.cons_append] at hr
        injection hr with h1 h2
        exact ⟨h1.symm, (ih cs).mpr ⟨r, h2⟩⟩

lemma extAtHead_iff (t u : List Char) :
    extAtHead t u = true ↔ ∃ b, u = ('.' :: t) ++ b ∧ qEnd b = true := by
  rw [extAtHead, Bool.and_eq_true]
  have hdrop : ∀ b : List Char, (('.' :: t) ++ b).drop (t.length + 1) = b := by
    intro b
    have h : ('.' :: t).length = t.length + 1 := by simp
    rw [← h, List.drop_left]
  constructor
  · rintro ⟨h1, h2⟩
    rcases (leadMatch_iff _ u).mp h1 with ⟨b, rfl⟩
    refine ⟨b, rfl, ?_⟩
    rwa [hdrop b] at h2
  · rintro ⟨b, rfl, hq⟩
    exact ⟨(leadMatch_iff _ _).mpr ⟨b, rfl⟩, by rwa [hdrop b]⟩

lemma urlExtAt_some_spec (u t : List Char) (h : urlExtAt u = some t) :
    (t = jpegTok ∨ t = jpgTok ∨ t = pngTok ∨ t = webpTok) ∧
      ∃ b, u = ('.' :: t) ++ b ∧ qEnd b = true := by
  rw [urlExtAt] at h
  split_ifs at h with h1 h2 h3 h4
  · cases h; exact ⟨Or.inl rfl, (extAtHead_iff _ _).mp h1⟩
  · cases h; exact ⟨Or.inr (Or.inl rfl), (extAtHead_iff _ _).mp h2⟩
  · cases h; exact ⟨Or.inr (Or.inr (Or.inl rfl)), (extAtHead_iff _ _).mp h3⟩
  · cases h; exact ⟨Or.inr (Or.inr (Or.inr rfl)), (extAtHead_iff _ _).mp h4⟩

lemma urlExtAt_none_no_match (u : List Char) (h : urlExtAt u = none) (t b : List Char)
    (ht : t = jpegTok ∨ t = jpgTok ∨ t = pngTok ∨ t = webpTok)
    (hu : u = ('.' :: t) ++ b) (hq : qEnd b = true) : False := by
  rcases ht with rfl | rfl | rfl | rfl
  · rw [urlExtAt, if_pos ((extAtHead_iff _ _).mpr ⟨b, hu, hq⟩)] at h
    cases h
  · have hyes : extAtHead jpgTok u = true := (extAtHead_iff _ _).mpr ⟨b, hu, hq⟩
    rw [urlExtAt] at h
    by_cases h1 : extAtHead jpegTok u = true
    · rw [if_pos h1] at h; cases h
    · rw [if_neg h1, if_pos hyes] at h; cases h
  · have hyes : extAtHead pngTok u = true := (extAtHead_iff _ _).mpr ⟨b, hu, hq⟩
    rw [urlExtAt] at h
    by_cases h1 : extAtHead jpegTok u = true
    · rw [if_pos h1] at h; cases h
    · rw [if_neg h1] at h
      by_cases h2 : extAtHead jpgTok u = true
      · rw [if_pos h2] at h; cases h
      · rw [if_neg h2, if_pos hyes] at h; cases h
  · have hyes : extAtHead webpTok u = true := (extAtHead_iff _ _).mpr ⟨b, hu, hq⟩
    rw [urlExtAt] at h
    by_cases h1 : extAtHead jpegTok u = true
    · rw [if_pos h1] at h; cases h
    · rw [if_neg h1] at h
      by_cases h2 : extAtHead jpgTok u = true
      · rw [if_pos h2] at h; cases h
      · rw [if_neg h2] at h
        by_cases h3 : extAtHead pngTok u = true
        · rw [if_pos h3] at h; cases h
        · rw [if_neg h3, if_pos hyes] at h; cases h

lemma urlExtSearch_spec (u : List Char) :
    ∀ t, urlExtSearch u = some t →
      (t = jpegTok ∨ t = jpgTok ∨ t = pngTok ∨ t = webpTok) ∧
      ∃ a b, u = a ++ ('.' :: t) ++ b ∧ qEnd b = true ∧
        (∀ a2 t2 b2, (t2 = jpegTok ∨ t2 = jpgTok ∨ t2 = pngTok ∨ t2 = webpTok) →
          u = a2 ++ ('.' :: t2) ++ b2 → qEnd b2 = true → a.length ≤ a2.length) := by
  induction u with
  | nil => intro t h; cases h
  | cons c cs ih =>
    intro t h
    cases hat : urlExtAt (c :: cs) with
    | some t0 =>
      simp only [urlExtSearch, hat] at h
      cases h
      rcases urlExtAt_some_spec (c :: cs) t hat with ⟨htok, ⟨b, hu, hq⟩⟩
      refine ⟨htok, [], b, by simpa using hu, hq, ?_⟩
      intro a2 t2 b2 _ _ _
      simp
    | none =>
      simp only [urlExtSearch, hat] at h
      rcases ih t h with ⟨htok, ⟨a, b, hu, hq, hmin⟩⟩
      refine ⟨htok, c :: a, b, by simp [hu], hq, ?_⟩
      intro a2 t2 b2 ht2 hu2 hq2
      cases a2 with
      | nil =>
        exfalso
        exact urlExtAt_none_no_match (c :: cs) hat t2 b2 ht2 (by simpa using hu2) hq2
      | cons c2 a2t =>
        simp only [List.cons_append, List.append_assoc, List.cons.injEq] at hu2
        rcases hu2 with ⟨_, hcs⟩
        have hcs2 : cs = a2t ++ ('.' :: t2) ++ b2 := by
          simp [hcs]
        simpa using Nat.succ_le_succ (hmin a2t t2 b2 ht2 hcs2 hq2)

lemma urlExtSearch_none_no_match (u : List Char) (h : urlExtSearch u = none) :
    ∀ a t b, (t = jpegTok ∨ t = jpgTok ∨ t = pngTok ∨ t = webpTok) →
      u = a ++ ('.' :: t) ++ b → qEnd b = true → False := by
  induction u with
  | nil =>
    intro a t b ht hu hq
    cases a <;> simp at hu
  | cons c cs ih =>
    intro a t b ht hu hq
    cases hat : urlExtAt (c :: cs) with
    | some t0 =>
      simp only [urlExtSearch, hat] at h
      cases h
    | none =>
      simp only [urlExtSearch, hat] at h
      cases a with
      | nil =>
        exact urlExtAt_none_no_match (c :: cs) hat t b ht (by simpa using hu) hq
      | cons c2 a2 =>
        simp only [List.cons_append, List.append_assoc, List.cons.injEq] at hu
        rcases hu with ⟨_, hcs⟩
        have hcs2 : cs = a2 ++ ('.' :: t) ++ b := by
          simp [hcs]
        exact ih h a2 t b ht hcs2 hq

/-! ## Lemmas about the color model -/

lemma srgb_to_linear_bounds (c : ℝ) (h0 : 0 ≤ c) (h255 : c ≤ 255) :
    0 ≤ srgb_to_linear c ∧ srgb_to_linear c ≤ 1 := by
  rw [srgb_to_linear]
  have hc0 : 0 ≤ c / 255 := by positivity
  have hc1 : c / 255 ≤ 1 := by
    rw [div_le_one (by norm_num : (0:ℝ) < 255)]
    linarith
  split_ifs with h
  · constructor
    · positivity
    · rw [div_le_one (by norm_num : (0:ℝ) < 12.92)]
      linarith
  · constructor
    · exact Real.rpow_nonneg (by positivity) _
    · refine Real.rpow_le_one (by positivity) ?_ (by norm_num)
      rw [div_le_one (by norm_num : (0:ℝ) < 1.055)]
      linarith

lemma f_lab_bounds (t : ℝ) (h0 : 0 ≤ t) (h1 : t ≤ 1) :
    4 / 29 ≤ f_lab t ∧ f_lab t ≤ 1 := by
  rw [f_lab]
  split_ifs with h
  · constructor
    · have heq : ((216 : ℝ) / 24389) ^ ((1 : ℝ) / 3) = 6 / 29 := by
        have h3 : ((216 : ℝ) / 24389) = (6 / 29) ^ (3 : ℕ) := by norm_num
        rw [h3, ← Real.rpow_natCast ((6:ℝ)/29) 3, ← Real.rpow_mul (by norm_num)]
        norm_num
      have hle : ((216 : ℝ) / 24389) ^ ((1:ℝ)/3) ≤ t ^ ((1:ℝ)/3) :=
        Real.rpow_le_rpow (by norm_num) (le_of_lt h) (by norm_num)
      rw [heq] at hle
      linarith
    · exact Real.rpow_le_one h0 h1 (by norm_num)
  · push_neg at h
    constructor
    · rw [le_div_iff₀ (by norm_num : (0:ℝ) < 116)]
      nlinarith
    · rw [div_le_one (by norm_num : (0:ℝ) < 116)]
      nlinarith

lemma lab_L_bounds (r g b : ℕ) (hr : r ≤ 255) (hg : g ≤ 255) (hb2 : b ≤ 255) :
    0 ≤ (xyz_to_lab (rgb_to_xyz r g b).1 (rgb_to_xyz r g b).2.1 (rgb_to_xyz r g b).2.2).1 ∧
      (xyz_to_lab (rgb_to_xyz r g b).1 (rgb_to_xyz r g b).2.1 (rgb_to_xyz r g b).2.2).1 ≤ 100 := by
  have hR := srgb_to_linear_bounds r (Nat.cast_nonneg r) (by exact_mod_cast hr)
  have hG := srgb_to_linear_bounds g (Nat.cast_nonneg g) (by exact_mod_cast hg)
  have hB := srgb_to_linear_bounds b (Nat.cast_nonneg b) (by exact_mod_cast hb2)
  have hY0 : 0 ≤ (rgb_to_xyz r g b).2.1 := by
    rw [rgb_to_xyz]
    dsimp only
    nlinarith [hR.1, hG.1, hB.1]
  have hY1 : (rgb_to_xyz r g b).2.1 ≤ 1 := by
    rw [rgb_to_xyz]
    dsimp only
    nlinarith [hR.2, hG.2, hB.2]
  have hdiv : (rgb_to_xyz r g b).2.1 / 1.00000 = (rgb_to_xyz r g b).2.1 := by norm_num
  have hf := f_lab_bounds ((rgb_to_xyz r g b).2.1) hY0 hY1
  rw [xyz_to_lab]
  dsimp only
  rw [hdiv]
  constructor
  · nlinarith [hf.1]
  · nlinarith [hf.2]

lemma avgChan_le (l : List ℕ) (hb : ∀ x ∈ l, x ≤ 255) : avgChan l ≤ 255 := by
  rw [avgChan]
  rcases Nat.eq_zero_or_pos l.length with h0 | hpos
  · simp [List.length_eq_zero.mp h0]
  · have hsum : l.sum ≤ l.length * 255 := by
      have hs := List.sum_le_card_nsmul l 255 hb
      simpa [smul_eq_mul] using hs
    have hq : (l.sum : ℚ) / (l.length : ℚ) ≤ 255 := by
      rw [div_le_iff₀ (by exact_mod_cast hpos)]
      calc (l.sum : ℚ) ≤ ((l.length * 255 : ℕ) : ℚ) := by exact_mod_cast hsum
      _ = 255 * (l.length : ℚ) := by push_cast; ring
    calc ⌊(l.sum : ℚ) / (l.length : ℚ)⌋₊ ≤ ⌊(255 : ℚ)⌋₊ := Nat.floor_le_floor hq
    _ = 255 := by norm_num

/-! ## Claim theorems -/

/-- C1: in a run of the scan in which the early-exit rule never triggers (the
loop probes every candidate of the list), the returned Best-So-Far equals the
running strict minimum over the filter-passing candidates — the first valid
candidate becomes the initial best and a later candidate replaces it exactly
when its score is strictly lower, so equal scores keep the first-discovered
candidate; moreover one scan step never increases the best score, and on
three valid candidates scored 5, 2, 8 in order the final best score is 2. -/
theorem c1_best_so_far_running_strict_min (minW : Nat) (f : Probed → ℚ)
    (l : List Candidate) (hfull : (scanGo minW f l initScanState).2 = l.length) :
    (scanGo minW f l initScanState).1.best = specBest f (validsOf minW l)
    ∧ (∀ (s : ScanState) (c : Candidate) (q : ℚ × (List Nat × String)), s.best = some q →
        ∃ q2, (scanStep minW f c s).1.best = some q2 ∧ q2.1 ≤ q.1)
    ∧ ((scanGo 1280 exF158 exL158 initScanState).1.best).map (fun b => b.1) = some 2 := by
  refine ⟨?_, ?_, ?_⟩
  · rw [scanGo_noBreak_fold minW f l initScanState hfull,
      foldl_best_eq_specBest minW f l initScanState]
    rfl
  · intro s c q hq
    exact scanStep_best_mono minW f c s q hq
  · decide

/-- Witness for C1 at the spec's example: three probed candidates scored
5, 2, 8 with no early exit. -/
theorem c1_best_so_far_running_strict_min_witness :
    (scanGo 1280 exF158 exL158 initScanState).1.best =
      specBest exF158 (validsOf 1280 exL158) :=
  (c1_best_so_far_running_strict_min 1280 exF158 exL158 (by decide)).1

/-- C2 counterexample: a candidate list of 101 URLs all of whose probes raise
leads to 101 probe attempts, exceeding the claimed hard cap of 100 — failed
attempts are not counted by the cap (`checked` is incremented only after a
successful fetch, and the cap test is skipped by every `continue`). -/
theorem c2_probe_cap_counterexample :
    100 < (scanGo 1280 exF0 (List.replicate 101 (⟨"u", none⟩ : Candidate)) initScanState).2 := by
  decide

/-- C2 amended: the `checked >= 100` safety cap bounds the number of
filter-passing candidates examined in a run by 100, and the number of probe
attempts is bounded only by the candidate-list length. -/
theorem c2_cap_bounds_valid_candidates (minW : Nat) (f : Probed → ℚ) (l : List Candidate) :
    (scanGo minW f l initScanState).1.valid ≤ 100 ∧
      (scanGo minW f l initScanState).2 ≤ l.length :=
  ⟨scanGo_valid_le minW f l initScanState (Nat.le_refl 0) (Nat.zero_le 99),
   scanGo_probes_le minW f l initScanState⟩

/-- C3 counterexample: when the movie-database adapter returns ten copies of
one URL, only one unique candidate has been accumulated, yet the free-image-API
adapter is skipped — its URL `v` is missing from the aggregate — because the
code compares the raw length `len(probe)`, not the unique count, against the
threshold 10. -/
theorem c3_unique_threshold_counterexample :
    (dedupFirst (List.replicate 10 "u")).length = 1 ∧
      "v" ∉ orchestrate (List.replicate 10 "u") ["v"] [] [] [] := by
  constructor
  · decide
  · decide

/-- C3 amended: the orchestrator queries the adapters in the fixed priority
order movie databases, free image APIs, Google, DuckDuckGo, Bing, and a URL
reaches the aggregate exactly when its adapter ran, where each lower-priority
adapter runs exactly when the raw accumulated candidate count (duplicates
included) is still below that source's threshold 10, 20, 30, 40. -/
theorem c3_threshold_skip_membership (dbs apis google ddg bing : List String) (u : String) :
    u ∈ orchestrate dbs apis google ddg bing ↔
      u ∈ dbs ∨ (dbs.length < 10 ∧ u ∈ apis) ∨
        (lenAfterApis dbs apis < 20 ∧ u ∈ google) ∨
        (lenAfterGoogle dbs apis google < 30 ∧ u ∈ ddg) ∨
        (lenAfterDdg dbs apis google ddg < 40 ∧ u ∈ bing) := by
  simp only [orchestrate]
  rw [mem_dedupFirst]
  simp only [mem_ite_append]
  simp only [length_ite_append]
  simp only [lenAfterDdg, lenAfterGoogle, lenAfterApis]
  tauto

/-- C5: with the hard-coded early-exit threshold 0.3 and minimum valid count
2, as soon as the scan reaches a state whose Best-So-Far score is below 0.3
with at least 2 filter-passing candidates examined, no further candidate of
the list is probed: extending the candidate list beyond that point changes
neither the final state nor the number of probe attempts. -/
theorem c5_early_exit_stops_probes (minW : Nat) (f : Probed → ℚ) (l1 l2 : List Candidate)
    (h : earlyExitHit (scanGo minW f l1 initScanState).1 = true) :
    scanGo minW f (l1 ++ l2) initScanState = scanGo minW f l1 initScanState :=
  scanGo_stop minW f l1 l2 initScanState rfl h

/-- Witness for C5: two valid candidates scoring 1 then 0 trigger the early
exit, and a third candidate is never probed. -/
theorem c5_early_exit_stops_probes_witness :
    earlyExitHit (scanGo 1280 exF5 exL5a initScanState).1 = true ∧
      scanGo 1280 exF5 (exL5a ++ exL5b) initScanState =
        scanGo 1280 exF5 exL5a initScanState :=
  ⟨by decide, c5_early_exit_stops_probes 1280 exF5 exL5a exL5b (by decide)⟩

/-- C7: the aggregator deduplicates while preserving first-seen order: the
result equals the specification reading (later duplicates dropped in place),
is duplicate-free, is a sublist of the input, contains exactly the URLs of
the input, and on the adapter outputs `[[u1, u2], [u2, u3]]` concatenated in
priority order it returns `[u1, u2, u3]`. -/
theorem c7_aggregator_dedup (l : List String) :
    dedupFirst l = keepFirsts l
    ∧ (dedupFirst l).Nodup
    ∧ (dedupFirst l).Sublist l
    ∧ (∀ u, u ∈ dedupFirst l ↔ u ∈ l)
    ∧ dedupFirst (["u1", "u2"] ++ ["u2", "u3"]) = ["u1", "u2", "u3"] :=
  ⟨dedupFirst_eq_keepFirsts l, dedupGo_nodup l [], dedupGo_sublist l [],
   fun u => mem_dedupFirst u l, by decide⟩

/-- C4 counterexample: one hundred successfully fetched candidates that fail
the width floor do change the outcome of the scan — they advance `checked`
to the safety cap, so the scan stops after the first valid candidate
(bytes `[1]`) instead of reaching the better-scoring second one
(bytes `[2]`), which is returned when the filtered candidates are removed. -/
theorem c4_filtered_candidate_influences_result :
    fetch_best_landscape_scan 1280 exF4 (List.replicate 100 exFiltered ++ [exC4a, exC4b]) =
        some ([1], ".jpg") ∧
      fetch_best_landscape_scan 1280 exF4 [exC4a, exC4b] = some ([2], ".jpg") := by
  constructor
  · decide
  · decide

/-- C4 amended: a candidate that fails to download or fails the width or
aspect-ratio filter never becomes Best-So-Far — the returned bytes and
extension always originate from a filter-passing candidate, and such a
candidate never changes `best` or `valid_candidates` and never breaks the
loop; however a successfully fetched but filtered candidate does increment
the `checked` counter, through which it can affect where the safety cap
stops the scan. -/
theorem c4_invalid_never_best (minW : Nat) (f : Probed → ℚ) (l : List Candidate)
    (d : List Nat) (e : String)
    (hres : fetch_best_landscape_scan minW f l = some (d, e)) :
    (∃ u p, (u, p) ∈ validsOf minW l ∧ p.data = d ∧ infer_ext u (some p.ct) = e)
    ∧ (∀ (s : ScanState) (c : Candidate) (p : Probed), c.probe = some p →
        p.w < minW ∨ 5 * p.w < 6 * p.h →
        (scanStep minW f c s).1.best = s.best ∧ (scanStep minW f c s).1.valid = s.valid ∧
          (scanStep minW f c s).2 = false)
    ∧ (∀ (s : ScanState) (c : Candidate), c.probe = none → scanStep minW f c s = (s, false)) := by
  refine ⟨?_, ?_, ?_⟩
  · rw [fetch_best_landscape_scan] at hres
    by_cases h0 : l.length = 0
    · rw [if_pos h0] at hres
      cases hres
    · rw [if_neg h0] at hres
      cases hb : (scanGo minW f l initScanState).1.best with
      | none =>
        rw [hb] at hres
        exact absurd hres (by simp)
      | some q =>
        rw [hb] at hres
        have hres2 : (some (q.2.1, q.2.2) : Option (List Nat × String)) = some (d, e) := hres
        injection hres2 with hres3
        have hd : q.2.1 = d := congrArg Prod.fst hres3
        have he : q.2.2 = e := congrArg Prod.snd hres3
        rcases scanGo_best_origin minW f l initScanState q hb with hinit | ⟨u, p, hm, hq⟩
        · exact absurd hinit (by simp [initScanState])
        · refine ⟨u, p, hm, ?_, ?_⟩
          · rw [← hd, hq]
          · rw [← he, hq]
  · intro s c p hp hfail
    rcases hfail with hw | ha
    · rw [scanStep_narrow minW f c p s hp hw]
      exact ⟨rfl, rfl, rfl⟩
    · by_cases hw : p.w < minW
      · rw [scanStep_narrow minW f c p s hp hw]
        exact ⟨rfl, rfl, rfl⟩
      · rw [scanStep_flat minW f c p s hp hw ha]
        exact ⟨rfl, rfl, rfl⟩
  · intro s c hp
    exact scanStep_fail minW f c s hp

/-- Witness for C4's amended statement at the spec's width-floor example: a
500-px candidate that would score -100 is filtered, so the returned bytes
`[2]` come from the valid 2000-px candidate. -/
theorem c4_invalid_never_best_witness :
    ∃ u p, (u, p) ∈ validsOf 1280 [exSmall, exBig] ∧ p.data = [2] ∧
      infer_ext u (some p.ct) = ".jpg" :=
  (c4_invalid_never_best 1280 exFw [exSmall, exBig] [2] ".jpg" (by decide)).1

/-- C6: a fetch or decode error while probing one candidate only skips that
candidate: the scan's result on any candidate list equals its result on the
sublist of successfully probed candidates, and in particular when the first
two candidates raise and the third succeeds and passes the filters, the
engine returns the third candidate's bytes and inferred extension. -/
theorem c6_fetch_error_skips_candidate (minW : Nat) (f : Probed → ℚ) :
    (∀ l : List Candidate,
        fetch_best_landscape_scan minW f l =
          fetch_best_landscape_scan minW f (l.filter fun c => c.probe.isSome))
    ∧ (∀ (u1 u2 : String) (c3 : Candidate) (p3 : Probed), c3.probe = some p3 →
        ¬p3.w < minW → ¬5 * p3.w < 6 * p3.h →
        fetch_best_landscape_scan minW f [⟨u1, none⟩, ⟨u2, none⟩, c3] =
          some (p3.data, infer_ext c3.url (some p3.ct))) := by
  constructor
  · intro l
    exact fetch_filter_eq minW f l
  · intro u1 u2 c3 p3 hp hw ha
    have hE : earlyExitHit (bumpState f c3 p3 initScanState) = false := by
      simp [earlyExitHit, bumpState, bestUpdate, initScanState]
    rw [fetch_best_landscape_scan, if_neg (by simp)]
    rw [scanGo_cons, scanStep_fail minW f ⟨u1, none⟩ initScanState rfl]
    simp only [Bool.false_eq_true, if_false]
    rw [scanGo_cons, scanStep_fail minW f ⟨u2, none⟩ initScanState rfl]
    simp only [Bool.false_eq_true, if_false]
    rw [scanGo_cons, scanStep_valid minW f c3 p3 initScanState hp hw ha]
    rw [if_neg (by simp [earlyExitHit, bumpState, bestUpdate, initScanState])]
    simp [scanGo_nil, bumpState, bestUpdate, initScanState]

/-- Witness for C6: two raising candidates followed by a valid 2000×1125 one
yield that candidate's bytes and extension. -/
theorem c6_fetch_error_skips_candidate_witness :
    fetch_best_landscape_scan 1280 exF0 [⟨"a", none⟩, ⟨"b", none⟩, exBig] =
      some ([2], ".jpg") :=
  ((c6_fetch_error_skips_candidate 1280 exF0).2 "a" "b" exBig ⟨[2], 2000, 1125, "image/jpeg"⟩
    rfl (by decide) (by decide)).trans (by decide)

lemma ctInfer_mem (ct0 e : String) (h : ctInfer ct0 = some e) :
    e ∈ [".jpg", ".png", ".webp", ".jpeg"] := by
  rw [ctInfer] at h
  split_ifs at h with h1 h2 h3 h4
  · cases h; decide
  · cases h; decide
  · cases h; decide

lemma urlInfer_mem (url : String) : urlInfer url ∈ [".jpg", ".png", ".webp", ".jpeg"] := by
  rw [urlInfer]
  cases hs : urlExtSearch (lowerStr url.data) with
  | none => decide
  | some t =>
    rcases (urlExtSearch_spec (lowerStr url.data) t hs).1 with rfl | rfl | rfl | rfl <;> decide

/-- C8 counterexample: for the URL `a.jpeg` with no content type the function
returns `.jpeg`, which is not one of `.jpg`, `.png`, `.webp`; and the URL
fallback is neither "strip the query string, then look at the end" (on
`x?y.png` the code returns `.png` although the part before the query string
has no extension) nor "the trailing token" (on `a.jpg?b.png` the code returns
the leftmost match `.jpg`, not the trailing `.png`); Python's `$` also
matches just before a trailing newline, so a URL ending in `.png\n` still
yields `.png`. -/
theorem c8_infer_ext_counterexample :
    infer_ext "a.jpeg" none = ".jpeg" ∧
      (".jpeg" : String) ∉ [".jpg", ".png", ".webp"] ∧
      infer_ext "x?y.png" none = ".png" ∧
      infer_ext "a.jpg?b.png" none = ".jpg" ∧
      infer_ext "a.png\n" none = ".png" := by
  refine ⟨by decide, by decide, by decide, by decide, by decide⟩

/-- C8 amended: `infer_ext` prefers the declared content type — on a
non-empty content type it returns `.png`, `.webp`, `.jpg` according to the
first of the substring tests `png`, `webp`, `jpeg`/`jpg` that matches —
otherwise it falls back to the URL, where exactly one of two cases holds:
either no occurrence of `.jpg`/`.jpeg`/`.png`/`.webp` followed by `?`, the
end of the URL, or a newline ending the URL (Python's `$`) exists in the
lowercased URL and the result is the default `.jpg`, or such occurrences
exist and the result is the lowered token of the leftmost one (so `.jpeg`
can be returned verbatim); the result is always one of `.jpg`, `.png`,
`.webp`, `.jpeg`. -/
theorem c8_infer_ext_amended (url ct0 : String) :
    (ct0.data ≠ [] → hasSub pngTok (lowerStr ct0.data) = true →
      infer_ext url (some ct0) = ".png")
    ∧ (ct0.data ≠ [] → hasSub pngTok (lowerStr ct0.data) = false →
        hasSub webpTok (lowerStr ct0.data) = true → infer_ext url (some ct0) = ".webp")
    ∧ (ct0.data ≠ [] → hasSub pngTok (lowerStr ct0.data) = false →
        hasSub webpTok (lowerStr ct0.data) = false →
        (hasSub jpegTok (lowerStr ct0.data) = true ∨
          hasSub jpgTok (lowerStr ct0.data) = true) →
        infer_ext url (some ct0) = ".jpg")
    ∧ ((ct0.data = [] ∨
        (hasSub pngTok (lowerStr ct0.data) = false ∧
         hasSub webpTok (lowerStr ct0.data) = false ∧
         hasSub jpegTok (lowerStr ct0.data) = false ∧
         hasSub jpgTok (lowerStr ct0.data) = false)) →
        infer_ext url (some ct0) = infer_ext url none)
    ∧ ((infer_ext url none = ".jpg" ∧
        (∀ a t b, (t = jpegTok ∨ t = jpgTok ∨ t = pngTok ∨ t = webpTok) →
          lowerStr url.data = a ++ ('.' :: t) ++ b → qEnd b = true → False)) ∨
        ∃ t a b, (t = jpegTok ∨ t = jpgTok ∨ t = pngTok ∨ t = webpTok) ∧
          lowerStr url.data = a ++ ('.' :: t) ++ b ∧ qEnd b = true ∧
          infer_ext url none = String.mk ('.' :: t) ∧
          (∀ a2 t2 b2, (t2 = jpegTok ∨ t2 = jpgTok ∨ t2 = pngTok ∨ t2 = webpTok) →
            lowerStr url.data = a2 ++ ('.' :: t2) ++ b2 → qEnd b2 = true →
            a.length ≤ a2.length))
    ∧ infer_ext url (some ct0) ∈ [".jpg", ".png", ".webp", ".jpeg"]
    ∧ infer_ext url none ∈ [".jpg", ".png", ".webp", ".jpeg"] := by
  refine ⟨?_, ?_, ?_, ?_, ?_, ?_, ?_⟩
  · intro h1 h2
    simp [infer_ext, ctInfer, h1, h2]
  · intro h1 h2 h3
    simp [infer_ext, ctInfer, h1, h2, h3]
  · intro h1 h2 h3 h4
    rcases h4 with h4 | h4 <;> simp [infer_ext, ctInfer, h1, h2, h3, h4]
  · rintro (h | ⟨h1, h2, h3, h4⟩)
    · simp [infer_ext, ctInfer, h]
    · by_cases h0 : ct0.data = [] <;> simp [infer_ext, ctInfer, h0, h1, h2, h3, h4]
  · cases hs : urlExtSearch (lowerStr url.data) with
    | none =>
      left
      refine ⟨by simp [infer_ext, urlInfer, hs], ?_⟩
      intro a t b ht hu hq
      exact urlExtSearch_none_no_match (lowerStr url.data) hs a t b ht hu hq
    | some t =>
      right
      rcases urlExtSearch_spec (lowerStr url.data) t hs with ⟨htok, a, b, hsplit, hq, hmin⟩
      exact ⟨t, a, b, htok, hsplit, hq, by simp [infer_ext, urlInfer, hs], hmin⟩
  · cases hct : ctInfer ct0 with
    | none =>
      have : infer_ext url (some ct0) = urlInfer url := by simp [infer_ext, hct]
      rw [this]
      exact urlInfer_mem url
    | some e =>
      have : infer_ext url (some ct0) = e := by simp [infer_ext, hct]
      rw [this]
      exact ctInfer_mem ct0 e hct
  · have : infer_ext url none = urlInfer url := rfl
    rw [this]
    exact urlInfer_mem url

/-- Witness for C8's amended statement: a `image/png` content type yields
`.png`. -/
theorem c8_infer_ext_amended_witness :
    infer_ext "u" (some "image/png") = ".png" :=
  (c8_infer_ext_amended "u" "image/png").1 (by decide) (by decide)

/-- C9: the average-color-to-Lab conversion is a pure function of the pixel
list (equal inputs give equal Lab triples), and whenever every RGB channel of
every pixel lies in [0, 255], the lightness component of the resulting Lab
triple lies in [0, 100]. -/
theorem c9_avg_color_lab_L_bounds (pixels : List (ℕ × ℕ × ℕ))
    (hb : ∀ p ∈ pixels, p.1 ≤ 255 ∧ p.2.1 ≤ 255 ∧ p.2.2 ≤ 255) :
    (∀ qpix : List (ℕ × ℕ × ℕ), qpix = pixels → avg_color_lab qpix = avg_color_lab pixels)
    ∧ 0 ≤ (avg_color_lab pixels).1 ∧ (avg_color_lab pixels).1 ≤ 100 := by
  have hr : avgChan (pixels.map fun p => p.1) ≤ 255 := by
    apply avgChan_le
    intro x hx
    rcases List.mem_map.mp hx with ⟨p, hp, hx2⟩
    exact hx2 ▸ (hb p hp).1
  have hg : avgChan (pixels.map fun p => p.2.1) ≤ 255 := by
    apply avgChan_le
    intro x hx
    rcases List.mem_map.mp hx with ⟨p, hp, hx2⟩
    exact hx2 ▸ (hb p hp).2.1
  have hbl : avgChan (pixels.map fun p => p.2.2) ≤ 255 := by
    apply avgChan_le
    intro x hx
    rcases List.mem_map.mp hx with ⟨p, hp, hx2⟩
    exact hx2 ▸ (hb p hp).2.2
  have hL := lab_L_bounds (avgChan (pixels.map fun p => p.1))
    (avgChan (pixels.map fun p => p.2.1)) (avgChan (pixels.map fun p => p.2.2)) hr hg hbl
  refine ⟨fun qpix hq => by rw [hq], ?_, ?_⟩
  · simpa [avg_color_lab] using hL.1
  · simpa [avg_color_lab] using hL.2

/-- Witness for C9 at the all-black single-pixel image. -/
theorem c9_avg_color_lab_L_bounds_witness :
    0 ≤ (avg_color_lab [(0, 0, 0)]).1 ∧ (avg_color_lab [(0, 0, 0)]).1 ≤ 100 :=
  ⟨(c9_avg_color_lab_L_bounds [(0, 0, 0)] (by decide)).2.1,
   (c9_avg_color_lab_L_bounds [(0, 0, 0)] (by decide)).2.2⟩

/-- C10: the `infer_ext` functions of posters.py and of
download-images/script.py are extensionally equal — their sources are the
same character for character, so the two embeddings agree on every input. -/
theorem c10_infer_ext_variants_equal :
    ∀ (url : String) (ct : Option String), infer_ext url ct = script_infer_ext url ct :=
  fun _ _ => rfl
